import Mathlib

/-!
Shallow embedding of `assetfinder` (src/assetfinder/main.go): a subdomain
discovery tool that runs several source providers concurrently, merges their
raw name outputs on a shared channel, and has a single sink that normalizes
each name with `cleanDomain` and prints each distinct normalized name once.

Strings are modelled as `List Char`; Go's `strings.ToLower` as a per-character
`Char.toLower` map; Go byte indexing as list head access.
-/

/-- Go string model: a list of characters. -/
abbrev GoStr := List Char

/-- `strings.ToLower` (main.go line 194), modelled per character. -/
def toLowerStr (s : GoStr) : GoStr := s.map Char.toLower

/-- The first strip of `cleanDomain` (main.go lines 201-203):
`if d[0] == '*' || d[0] == '%' { d = d[1:] }`, on a nonempty string. -/
def stripMark : GoStr → GoStr
  | [] => []
  | c :: rest => if c = '*' ∨ c = '%' then rest else c :: rest

/-- The second strip of `cleanDomain` (main.go lines 205-207):
`if d[0] == '.' { d = d[1:] }`, on a nonempty string. -/
def stripDot : GoStr → GoStr
  | [] => []
  | c :: rest => if c = '.' then rest else c :: rest

/-- `cleanDomain` (main.go lines 193-211): lower-case, return short strings
as-is, else strip one leading `*`/`%` and then one leading `.`. -/
def cleanDomain (d0 : GoStr) : GoStr :=
  let d := toLowerStr d0
  if d.length < 2 then d
  else stripDot (stripMark d)

/-- `cleanDomain` with every Go byte index `d[0]` made explicit as a fallible
`List.get?` access (`none` models an index-out-of-range panic). -/
def cleanDomainChecked (d0 : GoStr) : Option GoStr :=
  let d := toLowerStr d0
  if d.length < 2 then some d
  else
    match d.get? 0 with
    | none => none
    | some c0 =>
      let d1 := if c0 = '*' ∨ c0 = '%' then d.drop 1 else d
      match d1.get? 0 with
      | none => none
      | some c1 => some (if c1 = '.' then d1.drop 1 else d1)

/-- State of the sink loop in `main` (main.go lines 63-73): the keys of the
`printed` map in insertion order, and the lines printed so far. -/
structure SinkState where
  printed : List GoStr
  output : List GoStr
deriving Repr, DecidableEq

/-- One iteration of the sink loop (main.go lines 66-73): normalize, skip if
already printed, else print and record. -/
def sinkStep (st : SinkState) (n0 : GoStr) : SinkState :=
  let n := cleanDomain n0
  if n ∈ st.printed then st
  else { printed := st.printed ++ [n], output := st.output ++ [n] }

/-- The sink's whole run over a merged input sequence. -/
def sinkRun (input : List GoStr) : SinkState :=
  input.foldl sinkStep ⟨[], []⟩

/-- What one provider goroutine sends to the merge channel (main.go lines
41-54): nothing when `fn` returned an error, otherwise every name. -/
def taskEmit (r : List GoStr × Option String) : List GoStr :=
  match r.2 with
  | some _ => []
  | none => r.1

/-- The errors reported to stderr (main.go line 47), one per failing task. -/
def reportedErrs (rs : List (List GoStr × Option String)) : List String :=
  rs.filterMap (fun r => r.2)

/-- `m` is one possible content of the merge channel for per-task emission
lists `ls`: at each step some task with output remaining sends its next name
(main.go lines 33-61); each task's own order is preserved, interleaving is
arbitrary, and the channel closes when all tasks are done. -/
inductive Merge : List (List GoStr) → List GoStr → Prop
  | done (ls : List (List GoStr)) : (∀ l ∈ ls, l = []) → Merge ls []
  | step (ls : List (List GoStr)) (i : Nat) (a : GoStr) (l : List GoStr)
      (m : List GoStr) : ls.get? i = some (a :: l) → Merge (ls.set i l) m →
      Merge ls (a :: m)

/-- The decode loop of `fetchCrtSh` (main.go lines 160-173): the response
body is modelled as the sequence of results of successive `dec.Decode` calls,
`some n` a decoded `name_value`, `none` a decode error (`io.EOF` at normal end
of stream included); the loop breaks at the first failure. -/
def crtShDecode : List (Option GoStr) → List GoStr
  | [] => []
  | none :: _ => []
  | some n :: rest => n :: crtShDecode rest

/-- `fetchCrtSh` (main.go lines 149-175): on a transport error the error is
returned with no names; otherwise the decoded names up to the first decode
failure are returned with a nil error. -/
def fetchCrtSh (body : Except String (List (Option GoStr))) :
    List GoStr × Option String :=
  match body with
  | .error e => ([], some e)
  | .ok stream => (crtShDecode stream, none)

/-- Splitting at the first comma: `none` when the string has no comma, else
the parts before and after the first comma. -/
def breakAtComma : GoStr → Option (GoStr × GoStr)
  | [] => none
  | c :: cs =>
    if c = ',' then some ([], cs)
    else
      match breakAtComma cs with
      | none => none
      | some (a, b) => some (c :: a, b)

/-- `strings.SplitN(line, ",", 2)` (main.go line 113): the whole line when it
has no comma, else the part before the first comma and the rest. -/
def splitN2 (l : GoStr) : List GoStr :=
  match breakAtComma l with
  | none => [l]
  | some (a, b) => [a, b]

/-- The scan loop of `fetchHackerTarget` (main.go lines 111-119), the line
scanner abstracted to the list of scanned lines: keep `parts[0]` of each line
whose `SplitN` result has exactly two parts, silently skip the others. -/
def hackerTargetParse : List GoStr → List GoStr
  | [] => []
  | line :: rest =>
    let parts := splitN2 line
    if parts.length = 2 then parts.headD [] :: hackerTargetParse rest
    else hackerTargetParse rest

/-- Modelled from the spec: the comma-delimited fields of a line, splitting at
every comma (`strings.Split` semantics) — the reading of "exactly two
comma-delimited fields" used by the spec's Source B sentence. -/
def commaFields : GoStr → List GoStr
  | [] => [[]]
  | c :: cs =>
    if c = ',' then [] :: commaFields cs
    else
      match commaFields cs with
      | [] => [[c]]
      | f :: fs => (c :: f) :: fs

theorem char_toNat_ofNat (n : Nat) (h : n.isValidChar) :
    (Char.ofNat n).toNat = n := by
  rw [Char.ofNat, dif_pos h]
  rfl

theorem toLower_toLower (c : Char) : c.toLower.toLower = c.toLower := by
  by_cases h : c.toNat ≥ 65 ∧ c.toNat ≤ 90
  · have h2 : (Char.ofNat (c.toNat + 32)).toNat = c.toNat + 32 :=
      char_toNat_ofNat _ (Or.inl (by omega))
    have hlow : c.toLower = Char.ofNat (c.toNat + 32) := by
      rw [Char.toLower, if_pos h]
    rw [hlow, Char.toLower, h2, if_neg (by omega)]
  · have hlow : c.toLower = c := by rw [Char.toLower, if_neg h]
    simp only [hlow]

theorem toLowerStr_toLowerStr (s : GoStr) :
    toLowerStr (toLowerStr s) = toLowerStr s := by
  simp only [toLowerStr, List.map_map]
  exact List.map_congr_left (fun c _ => toLower_toLower c)

/-- `cleanDomain` strips zero, one or two leading characters of the
lower-cased input, at most one of class `*`/`%` and then at most one `.`. -/
theorem cleanDomain_cases (d : GoStr) :
    cleanDomain d = toLowerStr d ∨
    (∃ c t, toLowerStr d = c :: t ∧ (c = '*' ∨ c = '%' ∨ c = '.') ∧
      cleanDomain d = t) ∨
    (∃ c t, toLowerStr d = c :: '.' :: t ∧ (c = '*' ∨ c = '%') ∧
      cleanDomain d = t) := by
  unfold cleanDomain
  match hL : toLowerStr d with
  | [] => left; simp
  | [c] => left; simp
  | c :: c2 :: t2 =>
    rw [if_neg (by simp)]
    by_cases hc : c = '*' ∨ c = '%'
    · rw [show stripMark (c :: c2 :: t2) = c2 :: t2 by simp [stripMark, hc]]
      by_cases hc2 : c2 = '.'
      · right; right
        exact ⟨c, t2, by rw [hc2], hc, by simp [stripDot, hc2]⟩
      · right; left
        exact ⟨c, c2 :: t2, rfl, by tauto, by simp [stripDot, hc2]⟩
    · rw [show stripMark (c :: c2 :: t2) = c :: c2 :: t2 by simp [stripMark, hc]]
      by_cases hcd : c = '.'
      · right; left
        exact ⟨c, c2 :: t2, rfl, by tauto, by simp [stripDot, hcd]⟩
      · left
        simp [stripDot, hcd]

/-- The output of `cleanDomain` is some suffix of the lower-cased input. -/
theorem cleanDomain_exists_drop (d : GoStr) :
    ∃ k, cleanDomain d = (toLowerStr d).drop k := by
  rcases cleanDomain_cases d with h | ⟨c, t, hL, _, h⟩ | ⟨c, t, hL, _, h⟩
  · exact ⟨0, by simpa using h⟩
  · exact ⟨1, by simp [h, hL]⟩
  · exact ⟨2, by simp [h, hL]⟩

/-- The output of `cleanDomain` is already lower-cased. -/
theorem toLowerStr_cleanDomain (d : GoStr) :
    toLowerStr (cleanDomain d) = cleanDomain d := by
  obtain ⟨k, hk⟩ := cleanDomain_exists_drop d
  rw [hk]
  calc toLowerStr ((toLowerStr d).drop k)
      = (toLowerStr (toLowerStr d)).drop k := List.map_drop _ _ _
    _ = (toLowerStr d).drop k := by rw [toLowerStr_toLowerStr]

/-- C10: `cleanDomain` is total and never panics: with every Go byte index
made explicit as a fallible access, evaluation never goes out of range and
agrees with the total function. -/
theorem cleanDomain_no_panic (d : GoStr) :
    cleanDomainChecked d = some (cleanDomain d) := by
  unfold cleanDomainChecked cleanDomain
  match hL : toLowerStr d with
  | [] => simp
  | [c] => simp
  | c :: c2 :: t2 =>
    rw [if_neg (by simp), if_neg (by simp)]
    by_cases hc : c = '*' ∨ c = '%'
    · simp only [List.get?, hc, if_true, List.drop_succ_cons, List.drop_zero]
      simp [stripMark, stripDot, hc]
    · simp only [List.get?, hc, if_false]
      simp [stripMark, stripDot, hc]

/-- C5 (amended): on inputs shorter than two characters `cleanDomain`
returns the lower-cased input unchanged, stripping nothing. -/
theorem cleanDomain_short_amended (x : GoStr) (hx : x.length < 2) :
    cleanDomain x = toLowerStr x := by
  unfold cleanDomain
  rw [if_pos (by simpa [toLowerStr] using hx)]

/-- A lower-case-fixed string that is short or does not start with a marker
is a fixed point of `cleanDomain`. -/
theorem cleanDomain_fix_of_no_marker (y : GoStr) (hfix : toLowerStr y = y)
    (h : y.length < 2 ∨ y.headD ' ' ∉ (['*', '%', '.'] : List Char)) :
    cleanDomain y = y := by
  unfold cleanDomain
  rw [hfix]
  by_cases hlen : y.length < 2
  · rw [if_pos hlen]
  · rw [if_neg hlen]
    rcases h with h | hhead
    · exact absurd h hlen
    · match y with
      | [] => rfl
      | c :: t =>
        simp only [List.headD_cons, List.mem_cons, List.mem_singleton] at hhead
        push_neg at hhead
        obtain ⟨h1, h2, h3⟩ := hhead
        simp [stripMark, stripDot, h1, h2, h3]

/-- The sink loop keeps its `printed` set equal to the emitted output. -/
theorem sinkFold_printed_eq (input : List GoStr) :
    ∀ st : SinkState, st.printed = st.output →
      (input.foldl sinkStep st).printed = (input.foldl sinkStep st).output := by
  induction input with
  | nil => intro st h; simpa using h
  | cons n rest ih =>
    intro st h
    rw [List.foldl_cons]
    apply ih
    by_cases hm : cleanDomain n ∈ st.output
    · simp [sinkStep, hm, h]
    · simp [sinkStep, hm, h]

/-- Membership in the sink's output: everything that went in, normalized. -/
theorem sinkFold_mem (input : List GoStr) :
    ∀ st : SinkState, st.printed = st.output → ∀ x,
      (x ∈ (input.foldl sinkStep st).output ↔
        x ∈ st.output ∨ x ∈ input.map cleanDomain) := by
  induction input with
  | nil => intro st h x; simp
  | cons n rest ih =>
    intro st h x
    rw [List.foldl_cons, List.map_cons]
    by_cases hm : cleanDomain n ∈ st.printed
    · rw [show sinkStep st n = st by simp [sinkStep, hm]]
      rw [ih st h x]
      have hmo : cleanDomain n ∈ st.output := h ▸ hm
      simp only [List.mem_cons]
      constructor
      · tauto
      · rintro (h1 | rfl | h1)
        · tauto
        · exact Or.inl hmo
        · tauto
    · rw [show sinkStep st n =
          ⟨st.printed ++ [cleanDomain n], st.output ++ [cleanDomain n]⟩ by
        simp [sinkStep, hm]]
      rw [ih _ (by simp [h]) x]
      simp only [List.mem_append, List.mem_singleton, List.mem_cons]
      tauto

/-- The sink never emits the same normalized name twice. -/
theorem sinkFold_nodup (input : List GoStr) :
    ∀ st : SinkState, st.printed = st.output → st.output.Nodup →
      (input.foldl sinkStep st).output.Nodup := by
  induction input with
  | nil => intro st h hn; simpa using hn
  | cons n rest ih =>
    intro st h hn
    rw [List.foldl_cons]
    by_cases hm : cleanDomain n ∈ st.printed
    · rw [show sinkStep st n = st by simp [sinkStep, hm]]
      exact ih st h hn
    · rw [show sinkStep st n =
          ⟨st.printed ++ [cleanDomain n], st.output ++ [cleanDomain n]⟩ by
        simp [sinkStep, hm]]
      have hno : cleanDomain n ∉ st.output := by rw [← h]; exact hm
      apply ih _ (by simp [h])
      simp [List.nodup_append, hn, hno]

/-- Replacing the `i`-th list changes a mapped sum by the value at `i`. -/
theorem sum_map_set (f : List GoStr → Nat) :
    ∀ (ls : List (List GoStr)) (i : Nat) (b a : List GoStr),
      ls.get? i = some a →
      ((ls.set i b).map f).sum + f a = (ls.map f).sum + f b := by
  intro ls
  induction ls with
  | nil => intro i b a h; simp at h
  | cons c t ih =>
    intro i b a h
    match i with
    | 0 =>
      simp only [List.get?_cons_zero, Option.some.injEq] at h
      subst h
      simp only [List.set_cons_zero, List.map_cons, List.sum_cons]
      omega
    | i + 1 =>
      rw [List.get?_cons_succ] at h
      have hrec := ih i b a h
      simp only [List.set_cons_succ, List.map_cons, List.sum_cons]
      omega

/-- Each name sent by some task appears on the merge channel exactly as often
as in the tasks' emission lists combined: no drops, no duplication. -/
theorem merge_count (ls : List (List GoStr)) (m : List GoStr)
    (h : Merge ls m) (x : GoStr) :
    m.count x = (ls.map (fun l => l.count x)).sum := by
  induction h with
  | done ls hall =>
    simp only [List.count_nil]
    symm
    apply List.sum_eq_zero
    intro y hy
    simp only [List.mem_map] at hy
    obtain ⟨l, hl, rfl⟩ := hy
    simp [hall l hl]
  | step ls i a l m hget hmerge ih =>
    have hs := sum_map_set (fun l => l.count x) ls i l (a :: l) hget
    simp only [List.count_cons] at hs ⊢
    rw [ih]
    omega

/-- Membership on the merge channel is membership in some task's emissions. -/
theorem merge_mem (ls : List (List GoStr)) (m : List GoStr)
    (h : Merge ls m) (x : GoStr) : x ∈ m ↔ x ∈ ls.flatten := by
  rw [← List.count_pos_iff, ← List.count_pos_iff, List.count_flatten,
    merge_count ls m h x]

/-- The crt.sh decode loop keeps everything decoded before the first failure
and drops the rest. -/
theorem crtShDecode_before_failure (names : List GoStr) :
    ∀ tail : List (Option GoStr),
      crtShDecode (names.map some ++ tail) = names ++ crtShDecode tail := by
  induction names with
  | nil => intro tail; rfl
  | cons n rest ih => intro tail; simp [crtShDecode, ih]

/-- The whole-stream crt.sh decode (no failure) keeps every name. -/
theorem crtShDecode_all_ok (names : List GoStr) :
    crtShDecode (names.map some) = names := by
  have h := crtShDecode_before_failure names []
  simpa [crtShDecode] using h

/-- `breakAtComma` in terms of `takeWhile`/`dropWhile`. -/
theorem breakAtComma_eq (l : GoStr) :
    breakAtComma l =
      if ',' ∈ l then
        some (l.takeWhile (fun c => c != ','), (l.dropWhile (fun c => c != ',')).tail)
      else none := by
  induction l with
  | nil => rfl
  | cons c cs ih =>
    by_cases hc : c = ','
    · subst hc
      simp [breakAtComma, List.takeWhile_cons, List.dropWhile_cons]
    · rw [show breakAtComma (c :: cs) = match breakAtComma cs with
          | none => none
          | some (a, b) => some (c :: a, b) by simp [breakAtComma, hc]]
      rw [ih]
      by_cases hm : ',' ∈ cs
      · simp [hm, hc, List.takeWhile_cons, List.dropWhile_cons]
      · have hcc : ¬(',' = c) := fun h => hc h.symm
        simp [hm, hcc]

/-- A name is sent by a task iff its provider succeeded and returned it. -/
theorem mem_taskEmit (names : List GoStr) (err : Option String) (n : GoStr) :
    n ∈ taskEmit (names, err) ↔ err = none ∧ n ∈ names := by
  cases err <;> simp [taskEmit]

/-- C1: for every sequence of raw names arriving on the merge channel, the
sink emits each distinct normalized name exactly once (its output has no
duplicates and holds exactly the normalized input names), and at every point
of its loop the `printed` map holds exactly the names already emitted. -/
theorem sink_dedup_invariant (input : List GoStr) :
    (sinkRun input).output.Nodup ∧
    (∀ x, x ∈ (sinkRun input).output ↔ x ∈ input.map cleanDomain) ∧
    (∀ pre suf, input = pre ++ suf →
      (sinkRun pre).printed = (sinkRun pre).output) := by
  refine ⟨sinkFold_nodup input ⟨[], []⟩ rfl (by simp), fun x => ?_,
    fun pre suf hps => sinkFold_printed_eq pre ⟨[], []⟩ rfl⟩
  rw [sinkRun, sinkFold_mem input ⟨[], []⟩ rfl x]
  simp

theorem sink_dedup_invariant_witness :
    (sinkRun [['A']]).printed = (sinkRun [['A']]).output :=
  (sink_dedup_invariant [['A'], ['a']]).2.2 [['A']] [['a']] rfl

/-- C2: whatever interleaving the merge channel produces for the successful
providers' name lists, every raw name appears on the merged sequence exactly
as often as emitted (no drops, no duplication by the orchestrator), and the
sink's final output holds exactly the normalized union of the lists. -/
theorem merge_completeness (ls : List (List GoStr)) (m : List GoStr)
    (h : Merge ls m) :
    (∀ x, m.count x = (ls.map (fun l => l.count x)).sum) ∧
    (∀ y, y ∈ (sinkRun m).output ↔ y ∈ ls.flatten.map cleanDomain) := by
  refine ⟨merge_count ls m h, fun y => ?_⟩
  rw [sinkRun, sinkFold_mem m ⟨[], []⟩ rfl y]
  have hm := merge_mem ls m h
  simp only [List.mem_map]
  constructor
  · rintro (h1 | ⟨n, hn, rfl⟩)
    · simp at h1
    · exact ⟨n, (hm n).1 hn, rfl⟩
  · rintro ⟨n, hn, rfl⟩
    exact Or.inr ⟨n, (hm n).2 hn, rfl⟩

theorem merge_completeness_witness :
    ((['a'] : GoStr) ∈ (sinkRun [['a'], ['b']]).output ↔
      (['a'] : GoStr) ∈ ([[['a']], [['b']]] : List (List GoStr)).flatten.map
        cleanDomain) :=
  (merge_completeness [[['a']], [['b']]] [['a'], ['b']]
    (Merge.step _ 0 ['a'] [] _ rfl
      (Merge.step _ 1 ['b'] [] _ rfl
        (Merge.done _ (by decide))))).2 ['a']

/-- C3: `cleanDomain` lower-cases the whole string, then strips at most one
leading `*`/`%` and then at most one leading `.`, never repeatedly; the
spec's four examples hold. -/
theorem cleanDomain_strip_discipline :
    cleanDomain "*.Example.COM".toList = "example.com".toList ∧
    cleanDomain "%www.Foo.org".toList = "www.foo.org".toList ∧
    cleanDomain ".bar.net".toList = "bar.net".toList ∧
    cleanDomain "*.%.test".toList = "%.test".toList ∧
    ∀ d : GoStr,
      cleanDomain d = toLowerStr d ∨
      (∃ c t, toLowerStr d = c :: t ∧ (c = '*' ∨ c = '%' ∨ c = '.') ∧
        cleanDomain d = t) ∨
      (∃ c t, toLowerStr d = c :: '.' :: t ∧ (c = '*' ∨ c = '%') ∧
        cleanDomain d = t) :=
  ⟨by decide, by decide, by decide, by decide, cleanDomain_cases⟩

/-- C4 (counterexample): normalization is not idempotent; on `"**a"` a second
application strips a second `*`. -/
theorem cleanDomain_idem_counterexample :
    cleanDomain (cleanDomain "**a".toList) ≠ cleanDomain "**a".toList := by
  decide

/-- C4 (amended): normalization is idempotent on every string whose
normalized form is shorter than two characters or does not start with `*`,
`%` or `.`. -/
theorem cleanDomain_idem_amended (x : GoStr)
    (h : (cleanDomain x).length < 2 ∨
      (cleanDomain x).headD ' ' ∉ (['*', '%', '.'] : List Char)) :
    cleanDomain (cleanDomain x) = cleanDomain x :=
  cleanDomain_fix_of_no_marker (cleanDomain x) (toLowerStr_cleanDomain x) h

theorem cleanDomain_idem_amended_witness :
    cleanDomain (cleanDomain "sub.Example.COM".toList) =
      cleanDomain "sub.Example.COM".toList :=
  cleanDomain_idem_amended "sub.Example.COM".toList (by decide)

/-- C5 (counterexample): a length-1 string does not always pass through
unchanged: `cleanDomain` lower-cases before the length check. -/
theorem cleanDomain_short_counterexample :
    (("A".toList : GoStr).length < 2) ∧ cleanDomain "A".toList ≠ "A".toList := by
  decide

theorem cleanDomain_short_amended_witness :
    cleanDomain ['A'] = toLowerStr ['A'] :=
  cleanDomain_short_amended ['A'] (by decide)

/-- C6 (counterexample): a provider that returns names together with an error
has those names dropped by the orchestrator goroutine, not kept. -/
theorem taskEmit_drop_counterexample :
    taskEmit ([['x']], some "boom") = [] ∧ (['x'] : GoStr) ∈ [['x']] := by
  constructor
  · rfl
  · decide

/-- C6 (amended): when a provider's fetch returns an error the orchestrator
forwards none of the names it returned; a provider's names reach the merge
channel only when it returns a nil error. -/
theorem taskEmit_error_amended (names : List GoStr) (e : String) :
    taskEmit (names, some e) = [] ∧ taskEmit (names, none) = names :=
  ⟨rfl, rfl⟩

/-- C7: an error from one provider is reported to stderr and contained: under
any interleaving, the sink's output holds exactly the normalized names of the
providers that returned a nil error, and every failing provider's error is on
the reported list. -/
theorem provider_error_contained (rs : List (List GoStr × Option String))
    (m : List GoStr) (h : Merge (rs.map taskEmit) m) :
    (∀ y, y ∈ (sinkRun m).output ↔
      ∃ r ∈ rs, r.2 = none ∧ ∃ n ∈ r.1, cleanDomain n = y) ∧
    (∀ r ∈ rs, ∀ e, r.2 = some e → e ∈ reportedErrs rs) := by
  constructor
  · intro y
    rw [sinkRun, sinkFold_mem m ⟨[], []⟩ rfl y]
    have hm := merge_mem (rs.map taskEmit) m h
    constructor
    · rintro (h1 | h1)
      · simp at h1
      · simp only [List.mem_map] at h1
        obtain ⟨n, hn, rfl⟩ := h1
        have hfl : n ∈ (rs.map taskEmit).flatten := (hm n).1 hn
        simp only [List.mem_flatten, List.mem_map] at hfl
        obtain ⟨l, ⟨r, hr, rfl⟩, hnl⟩ := hfl
        obtain ⟨names, err⟩ := r
        rw [mem_taskEmit] at hnl
        exact ⟨(names, err), hr, hnl.1, n, hnl.2, rfl⟩
    · rintro ⟨r, hr, hr2, n, hn1, rfl⟩
      right
      simp only [List.mem_map]
      refine ⟨n, ?_, rfl⟩
      apply (hm n).2
      simp only [List.mem_flatten, List.mem_map]
      obtain ⟨names, err⟩ := r
      exact ⟨taskEmit (names, err), ⟨(names, err), hr, rfl⟩,
        (mem_taskEmit names err n).2 ⟨hr2, hn1⟩⟩
  · intro r hr e he
    simp only [reportedErrs, List.mem_filterMap]
    exact ⟨r, hr, he⟩

theorem provider_error_contained_witness :
    ((['a'] : GoStr) ∈
        (sinkRun [['a'], ['b'], ['c'], ['d']]).output ↔
      ∃ r ∈ ([([['a'], ['b']], none), ([['x']], some "boom"),
          ([['c'], ['d']], none)] : List (List GoStr × Option String)),
        r.2 = none ∧ ∃ n ∈ r.1, cleanDomain n = ['a']) :=
  (provider_error_contained
    [([['a'], ['b']], none), ([['x']], some "boom"), ([['c'], ['d']], none)]
    [['a'], ['b'], ['c'], ['d']]
    (Merge.step _ 0 ['a'] [['b']] _ rfl
      (Merge.step _ 0 ['b'] [] _ rfl
        (Merge.step _ 2 ['c'] [['d']] _ rfl
          (Merge.step _ 2 ['d'] [] _ rfl
            (Merge.done _ (by decide))))))).1 ['a']

/-- C8: the crt.sh decoder takes one name per JSON object, stops silently at
the first decode failure (normal end of stream included), keeps everything
decoded before it, and reports a nil error either way. -/
theorem fetchCrtSh_stops_silently (names : List GoStr)
    (tail : List (Option GoStr)) :
    fetchCrtSh (.ok (names.map some ++ none :: tail)) = (names, none) ∧
    fetchCrtSh (.ok (names.map some)) = (names, none) := by
  constructor
  · show (crtShDecode (names.map some ++ none :: tail), none) = (names, none)
    rw [crtShDecode_before_failure]
    simp [crtShDecode]
  · show (crtShDecode (names.map some), none) = (names, none)
    rw [crtShDecode_all_ok]

/-- C9 (counterexample): the line `"a,b,c"` has three comma-delimited fields,
yet it is not skipped: its first field is output. -/
theorem hackerTarget_malformed_counterexample :
    (commaFields "a,b,c".toList).length ≠ 2 ∧
    hackerTargetParse ["a,b,c".toList] = ["a".toList] := by
  decide

/-- C9 (amended): for every line, the decoder outputs the text before the
first comma as a name, silently skipping exactly the lines containing no
comma. -/
theorem hackerTarget_first_field_amended (lines : List GoStr) :
    hackerTargetParse lines =
      lines.filterMap (fun l =>
        if ',' ∈ l then some (l.takeWhile (fun c => c != ',')) else none) := by
  induction lines with
  | nil => rfl
  | cons line rest ih =>
    rw [List.filterMap_cons]
    by_cases hm : ',' ∈ line
    · have hb : breakAtComma line = some (line.takeWhile (fun c => c != ','),
          (line.dropWhile (fun c => c != ',')).tail) := by
        rw [breakAtComma_eq, if_pos hm]
      have hsplit : splitN2 line = [line.takeWhile (fun c => c != ','),
          (line.dropWhile (fun c => c != ',')).tail] := by
        unfold splitN2
        rw [hb]
      simp only [hackerTargetParse, hsplit, List.length_cons, List.length_nil,
        List.headD_cons]
      simp [hm, ih]
    · have hb : breakAtComma line = none := by
        rw [breakAtComma_eq, if_neg hm]
      have hsplit : splitN2 line = [line] := by
        unfold splitN2
        rw [hb]
      simp only [hackerTargetParse, hsplit, List.length_cons, List.length_nil]
      simp [hm, ih]
